import Mathlib

/-!
Verification of the admission-controlled dispatch core of the SES transport
(`lib/ses-transport/index.js`).

The transport is embedded shallowly as a transition system.  Pure helper
computations (`_checkSendingRate`'s pruning and rate test, the ceiling
comparisons) become Lean functions; the stateful methods `send`,
`_checkRatedQueue`, `_sent` and the scheduling of the completion callback
become explicit state-update functions on a record `TS` mirroring the
fields of the `SESTransport` object, plus bookkeeping history fields
(admission order, admission timestamps, queue-entry order, delivered
callbacks) that record the externally observable events.

JavaScript numbers used by the counters and timestamps are modelled as
`Int`; the `Infinity` ceilings produced by the constructor are modelled as
`Option Nat` (`none` = unbounded) in the transition system, and by an
explicit `JSNum` type where the constructor's coercion itself is at issue.
-/

set_option linter.unusedVariables false

namespace SESVerify

/-- Result of one executed job, as passed to the executor's callback:
either a success value or an error.  The payload is carried around
unchanged so that "the error is forwarded verbatim" is expressible. -/
inductive Outcome where
  | success (v : Int)
  | failure (e : Int)
deriving DecidableEq, Repr

/-- Configuration of a transport: `maxConnections` and `sendingRate`
as produced by the constructor (`none` models `Infinity`, i.e. an
unset/unbounded ceiling; `some m` a finite ceiling). -/
structure Cfg where
  maxConnections : Option Nat
  sendingRate : Option Nat
deriving DecidableEq, Repr

/-- The transport state.  The first group of fields mirrors the mutable
fields of `SESTransport` (`connections`, `rateMessages`, `pending`,
`sendingRateTTL`, with `Date.now()` made explicit as `now`); the second
group is observation history used to state the claims:

* `inflight`   : ids of jobs handed to `_send` whose executor callback has
                 not fired yet (in JS this set is implicit in the closures);
* `scheduled`  : completion callbacks scheduled via `setImmediate` but not
                 yet delivered, with their outcome;
* `done`       : ids whose user callback has run;
* `calls`      : the sequence of user-callback invocations (id, outcome);
* `admitted`   : ids in the order they were handed to `_send`;
* `admitLog`   : the timestamp of every admission, never pruned
                 (the `rateMessages` push history);
* `everQueued` : ids in the order they were pushed onto `pending`.

Jobs are identified by submission order: `nextId` is the id the next
`send` call will use, so id `a < b` means `a` was submitted before `b`. -/
structure TS where
  connections : Int
  rateMessages : List Int
  pending : List Nat
  timer : Option Int
  now : Int
  nextId : Nat
  inflight : List Nat
  scheduled : List (Nat × Outcome)
  done : List Nat
  calls : List (Nat × Outcome)
  admitted : List Nat
  admitLog : List Int
  everQueued : List Nat
deriving DecidableEq, Repr

/-- `this.rateInterval = 1000` (line 39). -/
def rateInterval : Int := 1000

/-- The test `this.connections >= this.maxConnections` (lines 52 and 71),
with `maxConnections = Infinity` modelled as `none` (the comparison is
then always false). -/
def connAtMax (c : Int) : Option Nat → Bool
  | none => false
  | some m => decide ((m : Int) ≤ c)

/-- The test `this.rateMessages.length < this.sendingRate` (line 98),
with `sendingRate = Infinity` modelled as `none` (always true). -/
def rateLenOK (len : Nat) : Option Nat → Bool
  | none => true
  | some r => decide (len < r)

/-- The pruning loop of `_checkSendingRate` (lines 87-96): the `for` loop
counts the longest prefix of `rateMessages` whose entries satisfy
`t <= now - rateInterval` (it breaks at the first entry with
`t > now - rateInterval`) and `splice(0, remove)` deletes exactly that
prefix.  That is `dropWhile`. -/
def pruneLog (l : List Int) (now : Int) : List Int :=
  l.dropWhile (fun t => decide (t ≤ now - rateInterval))

/-- Result of `_checkSendingRate`: the returned boolean, the pruned
`rateMessages`, and the state of `sendingRateTTL` afterwards (`none`:
cleared and not re-armed; `some d`: re-armed, where `d` is the raw
duration passed to `setTimeout`). -/
structure RateCheck where
  ok : Bool
  log : List Int
  timer : Option Int
deriving DecidableEq, Repr

/-- `_checkSendingRate` (lines 82-106).  It always clears the pending
timer first; prunes the log; admits if the pruned length is below
`sendingRate`; otherwise arms a new timer.  The armed duration is
literally what the source passes to `setTimeout`:
`now - delay` where `delay = Math.max(rateMessages[0] + 1001, now + 20)`
(lines 102-103).  On the refusing branch the JS reads `rateMessages[0]`;
`headI` returns `0` for an empty list where JS would produce `NaN` — a
state only reachable with `sendingRate = 0`, which the configuration
contract (positive integer or unbounded) excludes; every theorem touching
the timer value is stated on a nonempty log. -/
def checkSendingRate (rate : Option Nat) (l : List Int) (now : Int) : RateCheck :=
  if rateLenOK (pruneLog l now).length rate then
    { ok := true, log := pruneLog l now, timer := none }
  else
    { ok := false, log := pruneLog l now,
      timer := some (now - max ((pruneLog l now).headI + 1001) (now + 20)) }

/-- The freshly constructed transport (constructor lines 32-42):
no connections, empty rate log, empty queue, no timer; history empty.
Time starts at 0 and advances through `tickStep`. -/
def initTS : TS :=
  { connections := 0, rateMessages := [], pending := [], timer := none,
    now := 0, nextId := 0, inflight := [], scheduled := [], done := [],
    calls := [], admitted := [], admitLog := [], everQueued := [] }

/-- `this.pending.push({mail, callback})` for the job being submitted
(lines 53-56 and 59-62): the fresh id goes to the queue tail; the rate
state is untouched (on the `connections` branch `_checkSendingRate` is
not even called). -/
def enqueue (s : TS) : TS :=
  { s with pending := s.pending ++ [s.nextId],
           everQueued := s.everQueued ++ [s.nextId],
           nextId := s.nextId + 1 }

/-- `send(mail, callback)` (lines 51-68).  If `connections >= maxConnections`,
queue.  Else run `_checkSendingRate`; on refusal, queue (the prune and the
armed timer persist).  On success, `_send` runs: `connections++`,
`rateMessages.push(Date.now())` (lines 120-121), and the job goes in
flight; the completion wiring (lines 64-67) is modelled by `completeStep`
and `deliverStep` below. -/
def sendStep (cfg : Cfg) (s : TS) : TS :=
  if connAtMax s.connections cfg.maxConnections then
    enqueue s
  else if (checkSendingRate cfg.sendingRate s.rateMessages s.now).ok then
    { s with rateMessages := (checkSendingRate cfg.sendingRate s.rateMessages s.now).log ++ [s.now],
             timer := (checkSendingRate cfg.sendingRate s.rateMessages s.now).timer,
             connections := s.connections + 1,
             inflight := s.inflight ++ [s.nextId],
             admitted := s.admitted ++ [s.nextId],
             admitLog := s.admitLog ++ [s.now],
             nextId := s.nextId + 1 }
  else
    { s with rateMessages := (checkSendingRate cfg.sendingRate s.rateMessages s.now).log,
             timer := (checkSendingRate cfg.sendingRate s.rateMessages s.now).timer,
             pending := s.pending ++ [s.nextId],
             everQueued := s.everQueued ++ [s.nextId],
             nextId := s.nextId + 1 }

/-- `_checkRatedQueue` (lines 70-80).  The guard short-circuits exactly as
the source does: if `connections >= maxConnections`, return with nothing
else evaluated; else `_checkSendingRate()` runs (pruning and timer effects
apply even when the queue turns out to be empty); on success with a
nonempty queue, `pending.shift()` pops the head job and `_send` runs on
it.  At most one job is dequeued per invocation — the source has no loop. -/
def checkRatedQueue (cfg : Cfg) (s : TS) : TS :=
  if connAtMax s.connections cfg.maxConnections then
    s
  else if (checkSendingRate cfg.sendingRate s.rateMessages s.now).ok then
    match s.pending with
    | [] => { s with rateMessages := (checkSendingRate cfg.sendingRate s.rateMessages s.now).log,
                     timer := (checkSendingRate cfg.sendingRate s.rateMessages s.now).timer }
    | h :: t =>
        { s with pending := t,
                 rateMessages := (checkSendingRate cfg.sendingRate s.rateMessages s.now).log ++ [s.now],
                 timer := (checkSendingRate cfg.sendingRate s.rateMessages s.now).timer,
                 connections := s.connections + 1,
                 inflight := s.inflight ++ [h],
                 admitted := s.admitted ++ [h],
                 admitLog := s.admitLog ++ [s.now] }
  else
    { s with rateMessages := (checkSendingRate cfg.sendingRate s.rateMessages s.now).log,
             timer := (checkSendingRate cfg.sendingRate s.rateMessages s.now).timer }

/-- `_sent` (lines 108-111): `connections--` then `_checkRatedQueue()`. -/
def sentStep (cfg : Cfg) (s : TS) : TS :=
  checkRatedQueue cfg { s with connections := s.connections - 1 }

/-- The executor callback for an in-flight job `j` firing with outcome `o`:
the wrapper of lines 64-67 (and 76-79) runs
`setImmediate(() => callback(...args)); this._sent();` — the user callback
is scheduled for a later turn and `_sent` runs now. -/
def completeStep (cfg : Cfg) (j : Nat) (o : Outcome) (s : TS) : TS :=
  sentStep cfg { s with inflight := s.inflight.erase j,
                        scheduled := s.scheduled ++ [(j, o)] }

/-- Delivery of the oldest `setImmediate`-scheduled user callback
(`setImmediate` preserves scheduling order).  The outcome reaches the
user callback unchanged. -/
def deliverStep (s : TS) : TS :=
  match s.scheduled with
  | [] => s
  | (j, o) :: rest =>
      { s with scheduled := rest, done := s.done ++ [j],
               calls := s.calls ++ [(j, o)] }

/-- The armed `sendingRateTTL` timer firing (line 103): the timeout is
one-shot, so it is cleared, and `_checkRatedQueue()` runs. -/
def fireStep (cfg : Cfg) (s : TS) : TS :=
  checkRatedQueue cfg { s with timer := none }

/-- Wall-clock time (`Date.now()`) advancing by `d ≥ 0` milliseconds. -/
def tickStep (d : Int) (s : TS) : TS :=
  { s with now := s.now + d }

/-- One atomic event of the transport: a `send` submission, an executor
completion for some in-flight job, delivery of a scheduled user callback,
the rate-recheck timer firing (only when armed), or time passing.
JavaScript's single-threaded run-to-completion model makes each of these
atomic with respect to the others. -/
inductive Step (cfg : Cfg) : TS → TS → Prop where
  | send (s : TS) : Step cfg s (sendStep cfg s)
  | complete (s : TS) (j : Nat) (o : Outcome) (hj : j ∈ s.inflight) :
      Step cfg s (completeStep cfg j o s)
  | deliver (s : TS) : Step cfg s (deliverStep s)
  | fire (s : TS) (h : s.timer.isSome = true) : Step cfg s (fireStep cfg s)
  | tick (s : TS) (d : Int) (hd : 0 ≤ d) : Step cfg s (tickStep d s)

/-- States reachable from a freshly constructed transport. -/
inductive Reachable (cfg : Cfg) : TS → Prop where
  | init : Reachable cfg initTS
  | step {s t : TS} : Reachable cfg s → Step cfg s t → Reachable cfg t

/-- Number of admissions whose timestamp lies in the trailing window
`(t - rateInterval, t]`. -/
def windowCount (l : List Int) (t : Int) : Nat :=
  (l.filter (fun x => decide (t - rateInterval < x ∧ x ≤ t))).length

/-- Global submission-order fairness of admissions, as the spec states it:
whenever job `i` was submitted before job `j` (ids are submission order)
and both have been admitted, `i` was admitted no later than `j`. -/
def FIFOAdmitted (s : TS) : Prop :=
  ∀ i j : Nat, i < j → i ∈ s.admitted → j ∈ s.admitted →
    s.admitted.indexOf i ≤ s.admitted.indexOf j

/-- The spec's description of one redrive invocation: after it runs, the
queue is empty or a further admission would be refused (by the concurrency
guard or by the rate check) — i.e. the redrive looped until exhaustion. -/
def DrainsToExhaustion (cfg : Cfg) (s : TS) : Prop :=
  (checkRatedQueue cfg s).pending = [] ∨
  connAtMax (checkRatedQueue cfg s).connections cfg.maxConnections = true ∨
  (checkSendingRate cfg.sendingRate (checkRatedQueue cfg s).rateMessages
      (checkRatedQueue cfg s).now).ok = false

/-- A JavaScript number as relevant to the constructor's ceiling fields:
`NaN`, `Infinity`, or a finite value.  `Number(x)` yields `NaN` for an
omitted option (`undefined`) and for non-coercible garbage; that coercion
is JS builtin semantics outside this repository, so the model takes the
already-coerced number as input.  Negative zero is identified with `0`
(both are falsy). -/
inductive JSNum where
  | nan
  | inf
  | fin (v : Int)
deriving DecidableEq, Repr

/-- `Number(this.options.maxConnections) || Infinity` resp.
`Number(this.options.sendingRate) || Infinity` (constructor lines 33, 37):
`NaN` and `0` are falsy and fall through to `Infinity`; every other
number passes through unchanged. -/
def ceilingOf (n : JSNum) : JSNum :=
  if n = JSNum.nan ∨ n = JSNum.fin 0 then JSNum.inf else n

/-- `this.connections >= this.maxConnections` (line 52) against a
JS-number ceiling; any comparison against `NaN` is false, and a finite
counter is never `>= Infinity`. -/
def jsConnAtMax (c : Int) : JSNum → Bool
  | JSNum.nan => false
  | JSNum.inf => false
  | JSNum.fin m => decide (m ≤ c)

/-- `this.rateMessages.length < this.sendingRate` (line 98) against a
JS-number ceiling; `len < Infinity` is true, `len < NaN` is false. -/
def jsRateLenOK (len : Nat) : JSNum → Bool
  | JSNum.nan => false
  | JSNum.inf => true
  | JSNum.fin r => decide ((len : Int) < r)

/-! ### Concrete configurations and traces used by the claims -/

/-- `sendingRate = 1`, unbounded connections. -/
def fifoCfg : Cfg := ⟨none, some 1⟩

/-- Submit jobs 0 and 1 at t=0 (0 admitted, 1 rate-queued); at t=1100
submit job 2 (admitted immediately, jumping the queue); at t=2200 job 0's
executor completes, and the redrive admits job 1.  Admission order ends
up `[0, 2, 1]`. -/
def fifoTrace : TS :=
  completeStep fifoCfg 0 (Outcome.success 0)
    (tickStep 1100 (sendStep fifoCfg
      (tickStep 1100 (sendStep fifoCfg (sendStep fifoCfg initTS)))))

def c2Cfg : Cfg := ⟨some 2, none⟩

def c2State : TS := sendStep c2Cfg initTS

def c3Cfg : Cfg := ⟨none, some 1⟩

def c3State : TS := sendStep c3Cfg initTS

/-- `sendingRate = 2`, unbounded connections. -/
def c5Cfg : Cfg := ⟨none, some 2⟩

/-- Jobs 0 and 1 admitted at t=0 exhausting the rate window; jobs 2 and 3
queued; then the clock advances to t=2000 so the whole window has
expired and there is capacity for both queued jobs. -/
def c5State : TS :=
  tickStep 2000 (sendStep c5Cfg (sendStep c5Cfg (sendStep c5Cfg (sendStep c5Cfg initTS))))

def c6Cfg : Cfg := ⟨none, none⟩

/-- Job 0 admitted, its executor fails, the scheduled user callback is
delivered. -/
def c6State : TS :=
  deliverStep (completeStep c6Cfg 0 (Outcome.failure 7) (sendStep c6Cfg initTS))

def c7Cfg : Cfg := ⟨some 1, none⟩

def c7State : TS := sendStep c7Cfg initTS

def c8Cfg : Cfg := ⟨none, some 1⟩

def c8State : TS := sendStep c8Cfg initTS

/-! ### Helper lemmas about the pruning and the rate check -/

theorem pruneLog_sublist (l : List Int) (now : Int) : List.Sublist (pruneLog l now) l :=
  List.dropWhile_sublist _

theorem mem_of_mem_pruneLog {l : List Int} {now x : Int}
    (h : x ∈ pruneLog l now) : x ∈ l :=
  (pruneLog_sublist l now).subset h

theorem pruneLog_length_le (l : List Int) (now : Int) :
    (pruneLog l now).length ≤ l.length :=
  (pruneLog_sublist l now).length_le

theorem takeWhile_append_pruneLog (l : List Int) (now : Int) :
    l.takeWhile (fun t => decide (t ≤ now - rateInterval)) ++ pruneLog l now = l :=
  List.takeWhile_append_dropWhile _ _

theorem mem_pruneDropped_le {l : List Int} {now x : Int}
    (h : x ∈ l.takeWhile (fun t => decide (t ≤ now - rateInterval))) :
    x ≤ now - rateInterval := by
  have := List.mem_takeWhile_imp h
  simpa using this

theorem pruneLog_sorted {l : List Int} (now : Int) (h : l.Sorted (· ≤ ·)) :
    (pruneLog l now).Sorted (· ≤ ·) :=
  h.sublist (pruneLog_sublist l now)

/-- On a sorted log the pruning removes exactly the expired entries:
the result is the sublist of entries strictly inside the window. -/
theorem pruneLog_eq_filter {l : List Int} (now : Int) (h : l.Sorted (· ≤ ·)) :
    pruneLog l now = l.filter (fun t => decide (now - rateInterval < t)) := by
  induction l with
  | nil => rfl
  | cons a tl ih =>
      rw [List.sorted_cons] at h
      obtain ⟨ha, htl⟩ := h
      by_cases hc : a ≤ now - rateInterval
      · have h1 : pruneLog (a :: tl) now = pruneLog tl now := by
          simp [pruneLog, List.dropWhile, hc]
        have h2 : ¬ (now - rateInterval < a) := not_lt.mpr hc
        rw [h1, ih htl, List.filter_cons]
        simp [h2]
      · push_neg at hc
        have h1 : pruneLog (a :: tl) now = a :: tl := by
          simp [pruneLog, List.dropWhile, not_le.mpr hc]
        have h2 : tl.filter (fun t => decide (now - rateInterval < t)) = tl :=
          List.filter_eq_self.mpr fun x hx => by
            simpa using lt_of_lt_of_le hc (ha x hx)
        rw [h1, List.filter_cons]
        simp [hc, h2]

theorem checkSendingRate_log (rate : Option Nat) (l : List Int) (now : Int) :
    (checkSendingRate rate l now).log = pruneLog l now := by
  unfold checkSendingRate
  split <;> rfl

theorem checkSendingRate_ok (rate : Option Nat) (l : List Int) (now : Int) :
    (checkSendingRate rate l now).ok = rateLenOK (pruneLog l now).length rate := by
  unfold checkSendingRate
  split <;> simp_all

theorem checkSendingRate_timer_of_refused (rate : Option Nat) (l : List Int) (now : Int)
    (h : (checkSendingRate rate l now).ok = false) :
    (checkSendingRate rate l now).timer
      = some (now - max ((pruneLog l now).headI + 1001) (now + 20)) := by
  unfold checkSendingRate at *
  split at h <;> simp_all

theorem rateLenOK_true {len : Nat} {r : Nat} (h : rateLenOK len (some r) = true) :
    len < r := by
  simpa [rateLenOK] using h

theorem connAtMax_false {c : Int} {m : Nat}
    (h : connAtMax c (some m) = false) : c < (m : Int) := by
  simpa [connAtMax] using h

/-! ### Helper lemmas about `windowCount` -/

theorem windowCount_append (l : List Int) (a t : Int) :
    windowCount (l ++ [a]) t
      = windowCount l t + (if t - rateInterval < a ∧ a ≤ t then 1 else 0) := by
  unfold windowCount
  rw [List.filter_append, List.length_append]
  congr 1
  by_cases h : t - rateInterval < a ∧ a ≤ t <;> simp [h]

/-- Every element of `l` counted by a window ending at `t ≥ now` is,
when all elements are `≤ now`, also inside the window ending at `now`;
hence the window count is bounded by the unexpired-entry count. -/
theorem windowCount_le_unexpired {l : List Int} {now t : Int}
    (hle : ∀ x ∈ l, x ≤ now) (ht : now ≤ t) :
    windowCount l t ≤ (l.filter (fun x => decide (now - rateInterval < x))).length := by
  unfold windowCount
  have hfilt : l.filter (fun x => decide (t - rateInterval < x ∧ x ≤ t))
      = (l.filter (fun x => decide (now - rateInterval < x))).filter
          (fun x => decide (t - rateInterval < x ∧ x ≤ t)) := by
    rw [List.filter_filter]
    refine (List.filter_congr fun x hx => ?_).symm
    by_cases hp : t - rateInterval < x ∧ x ≤ t
    · have hq : now - rateInterval < x := lt_of_le_of_lt (by omega) hp.1
      simp [hp, hq]
    · simp [hp]
  rw [hfilt]
  exact List.length_filter_le _ _

theorem checkSendingRate_timer_of_ok (rate : Option Nat) (l : List Int) (now : Int)
    (h : (checkSendingRate rate l now).ok = true) :
    (checkSendingRate rate l now).timer = none := by
  unfold checkSendingRate at *
  split at h <;> simp_all

/-! ### List helper lemmas (concatenation, permutation, freshness) -/

theorem nodup_concat {α : Type} {l : List α} {a : α}
    (h : l.Nodup) (ha : a ∉ l) : (l ++ [a]).Nodup :=
  (List.perm_append_singleton a l).symm.nodup (List.nodup_cons.mpr ⟨ha, h⟩)

theorem pairwise_concat {α : Type} {r : α → α → Prop} {l : List α} {a : α}
    (h : l.Pairwise r) (ha : ∀ x ∈ l, r x a) : (l ++ [a]).Pairwise r :=
  List.pairwise_append.mpr ⟨h, List.pairwise_singleton _ _, fun x hx b hb => by
    simp only [List.mem_singleton] at hb
    subst hb
    exact ha x hx⟩

/-- Appending a fresh element to the second of four concatenated blocks,
as a permutation pulling it to the front. -/
theorem perm_insert_second (P I S D : List Nat) (n : Nat) :
    List.Perm (((P ++ (I ++ [n])) ++ S) ++ D) (n :: (((P ++ I) ++ S) ++ D)) := by
  have h1 : List.Perm (P ++ (I ++ [n])) (n :: (P ++ I)) := by
    rw [← List.append_assoc]
    exact List.perm_append_singleton n (P ++ I)
  exact (h1.append_right S).append_right D

/-- Appending a fresh element to the third of four concatenated blocks,
as a permutation pulling it to the front. -/
theorem perm_insert_third (P I S D : List Nat) (n : Nat) :
    List.Perm (((P ++ I) ++ (S ++ [n])) ++ D) (n :: (((P ++ I) ++ S) ++ D)) := by
  have h1 : List.Perm ((P ++ I) ++ (S ++ [n])) (n :: ((P ++ I) ++ S)) := by
    rw [← List.append_assoc]
    exact List.perm_append_singleton n ((P ++ I) ++ S)
  exact h1.append_right D

/-- Appending a fresh element to the last of four concatenated blocks,
as a permutation pulling it to the front. -/
theorem perm_insert_fourth (P I S D : List Nat) (n : Nat) :
    List.Perm (((P ++ I) ++ S) ++ (D ++ [n])) (n :: (((P ++ I) ++ S) ++ D)) := by
  rw [← List.append_assoc]
  exact List.perm_append_singleton n _

/-- A cons in the third of four concatenated blocks, pulled to the front. -/
theorem perm_cons_third (P I S D : List Nat) (n : Nat) :
    List.Perm (((P ++ I) ++ (n :: S)) ++ D) (n :: (((P ++ I) ++ S) ++ D)) :=
  (List.perm_middle).append_right D

/-! ### The reachable-state invariant -/

/-- All the state properties maintained by every reachable transport
state: the concurrency bounds (C2), the rate-log and sliding-window
properties (C3), the id bookkeeping and exactly-once callback accounting
(C6), and FIFO accounting of the pending queue (C1). -/
structure Inv (cfg : Cfg) (s : TS) : Prop where
  conn_eq : s.connections = (s.inflight.length : Int)
  conn_le : ∀ m : Nat, cfg.maxConnections = some m → s.connections ≤ (m : Int)
  rate_sorted : s.rateMessages.Sorted (· ≤ ·)
  rate_le_now : ∀ x ∈ s.rateMessages, x ≤ s.now
  rate_len : ∀ r : Nat, cfg.sendingRate = some r → s.rateMessages.length ≤ r
  log_split : ∃ dropped, s.admitLog = dropped ++ s.rateMessages ∧
      ∀ x ∈ dropped, x ≤ s.now - rateInterval
  log_sorted : s.admitLog.Sorted (· ≤ ·)
  log_le_now : ∀ x ∈ s.admitLog, x ≤ s.now
  window : ∀ r : Nat, cfg.sendingRate = some r → ∀ t : Int, windowCount s.admitLog t ≤ r
  pend_lt : ∀ j ∈ s.pending, j < s.nextId
  infl_lt : ∀ j ∈ s.inflight, j < s.nextId
  sched_lt : ∀ p ∈ s.scheduled, p.1 < s.nextId
  done_lt : ∀ j ∈ s.done, j < s.nextId
  adm_lt : ∀ j ∈ s.admitted, j < s.nextId
  evq_lt : ∀ j ∈ s.everQueued, j < s.nextId
  calls_count : ∀ j : Nat,
      (s.calls.filter (fun p => decide (p.1 = j))).length = if j ∈ s.done then 1 else 0
  pend_sorted : s.pending.Sorted (· < ·)
  pend_not_adm : ∀ j ∈ s.pending, j ∉ s.admitted
  adm_nodup : s.admitted.Nodup
  queue_split : ∃ qadm, s.everQueued = qadm ++ s.pending ∧
      s.admitted.filter (fun j => decide (j ∈ s.everQueued)) = qadm
  part_nodup : (s.pending ++ s.inflight ++ s.scheduled.map Prod.fst ++ s.done).Nodup

theorem inv_initTS (cfg : Cfg) : Inv cfg initTS := by
  refine ⟨rfl, ?_, ?_, ?_, ?_, ⟨[], rfl, ?_⟩, ?_, ?_, ?_, ?_, ?_, ?_, ?_, ?_, ?_, ?_,
    ?_, ?_, ?_, ⟨[], rfl, rfl⟩, ?_⟩ <;>
    simp [initTS, windowCount]

theorem inv_timer (cfg : Cfg) (s : TS) (tm : Option Int) (h : Inv cfg s) :
    Inv cfg { s with timer := tm } := by
  obtain ⟨f1, f2, f3, f4, f5, f6, f7, f8, f9, f10, f11, f12, f13, f14, f15, f16,
    f17, f18, f19, f20, f21⟩ := h
  exact ⟨f1, f2, f3, f4, f5, f6, f7, f8, f9, f10, f11, f12, f13, f14, f15, f16,
    f17, f18, f19, f20, f21⟩

theorem inv_tick (cfg : Cfg) (s : TS) (d : Int) (hd : 0 ≤ d) (h : Inv cfg s) :
    Inv cfg (tickStep d s) := by
  obtain ⟨dropped, hsp, hdr⟩ := h.log_split
  exact ⟨h.conn_eq, h.conn_le, h.rate_sorted,
    fun x hx => le_trans (h.rate_le_now x hx) (show s.now ≤ s.now + d by omega),
    h.rate_len,
    ⟨dropped, hsp, fun x hx => le_trans (hdr x hx)
      (show s.now - rateInterval ≤ s.now + d - rateInterval by omega)⟩,
    h.log_sorted,
    fun x hx => le_trans (h.log_le_now x hx) (show s.now ≤ s.now + d by omega),
    h.window, h.pend_lt, h.infl_lt, h.sched_lt, h.done_lt, h.adm_lt, h.evq_lt,
    h.calls_count, h.pend_sorted, h.pend_not_adm, h.adm_nodup, h.queue_split,
    h.part_nodup⟩

/-- The state update shared by every branch that runs `_checkSendingRate`
without admitting: the log is pruned and the timer replaced. -/
theorem inv_prune (cfg : Cfg) (s : TS) (tm : Option Int) (h : Inv cfg s) :
    Inv cfg { s with rateMessages := pruneLog s.rateMessages s.now, timer := tm } := by
  obtain ⟨dropped, hsp, hdr⟩ := h.log_split
  refine ⟨h.conn_eq, h.conn_le, pruneLog_sorted s.now h.rate_sorted,
    fun x hx => h.rate_le_now x (mem_of_mem_pruneLog hx),
    fun r hr => le_trans (pruneLog_length_le _ _) (h.rate_len r hr),
    ⟨dropped ++ s.rateMessages.takeWhile (fun t => decide (t ≤ s.now - rateInterval)),
      ?_, ?_⟩,
    h.log_sorted, h.log_le_now, h.window, h.pend_lt, h.infl_lt, h.sched_lt,
    h.done_lt, h.adm_lt, h.evq_lt, h.calls_count, h.pend_sorted, h.pend_not_adm,
    h.adm_nodup, h.queue_split, h.part_nodup⟩
  · show s.admitLog = _
    rw [hsp, List.append_assoc, takeWhile_append_pruneLog]
  · intro x hx
    rcases List.mem_append.mp hx with h1 | h1
    · exact hdr x h1
    · exact mem_pruneDropped_le h1

theorem perm_insert_first (P I S D : List Nat) (n : Nat) :
    List.Perm ((((P ++ [n]) ++ I) ++ S) ++ D) (n :: (((P ++ I) ++ S) ++ D)) :=
  (((List.perm_append_singleton n P).append_right I).append_right S).append_right D

theorem fresh_not_mem_part {cfg : Cfg} {s : TS} (h : Inv cfg s) :
    s.nextId ∉ s.pending ++ s.inflight ++ s.scheduled.map Prod.fst ++ s.done := by
  intro hmem
  simp only [List.mem_append, List.mem_map] at hmem
  rcases hmem with ((hp | hi) | hs) | hd
  · exact absurd (h.pend_lt _ hp) (lt_irrefl _)
  · exact absurd (h.infl_lt _ hi) (lt_irrefl _)
  · obtain ⟨p, hp, hfst⟩ := hs
    exact absurd (hfst ▸ h.sched_lt p hp) (lt_irrefl _)
  · exact absurd (h.done_lt _ hd) (lt_irrefl _)

/-! ### Facts about an admission (`_send` pushing `now`) -/

theorem admit_rate_sorted {cfg : Cfg} {s : TS} (h : Inv cfg s) :
    (pruneLog s.rateMessages s.now ++ [s.now]).Sorted (· ≤ ·) :=
  pairwise_concat (pruneLog_sorted s.now h.rate_sorted)
    (fun a ha => h.rate_le_now a (mem_of_mem_pruneLog ha))

theorem admit_rate_le_now {cfg : Cfg} {s : TS} (h : Inv cfg s) :
    ∀ x ∈ pruneLog s.rateMessages s.now ++ [s.now], x ≤ s.now := by
  intro x hx
  rcases List.mem_append.mp hx with h1 | h1
  · exact h.rate_le_now x (mem_of_mem_pruneLog h1)
  · simp only [List.mem_singleton] at h1
    omega

theorem admit_rate_len {cfg : Cfg} {s : TS} (h : Inv cfg s)
    (hok : rateLenOK (pruneLog s.rateMessages s.now).length cfg.sendingRate = true) :
    ∀ r : Nat, cfg.sendingRate = some r →
      (pruneLog s.rateMessages s.now ++ [s.now]).length ≤ r := by
  intro r hr
  rw [hr] at hok
  have := rateLenOK_true hok
  simp only [List.length_append, List.length_singleton]
  omega

theorem admit_log_split {cfg : Cfg} {s : TS} (h : Inv cfg s) :
    ∃ dropped, s.admitLog ++ [s.now]
        = dropped ++ (pruneLog s.rateMessages s.now ++ [s.now]) ∧
      ∀ x ∈ dropped, x ≤ s.now - rateInterval := by
  obtain ⟨dropped, hsp, hdr⟩ := h.log_split
  refine ⟨dropped ++ s.rateMessages.takeWhile (fun t => decide (t ≤ s.now - rateInterval)),
    ?_, ?_⟩
  · rw [hsp]
    conv_lhs => rw [← takeWhile_append_pruneLog s.rateMessages s.now]
    simp [List.append_assoc]
  · intro x hx
    rcases List.mem_append.mp hx with h1 | h1
    · exact hdr x h1
    · exact mem_pruneDropped_le h1

theorem admit_log_sorted {cfg : Cfg} {s : TS} (h : Inv cfg s) :
    (s.admitLog ++ [s.now]).Sorted (· ≤ ·) :=
  pairwise_concat h.log_sorted h.log_le_now

theorem admit_log_le_now {cfg : Cfg} {s : TS} (h : Inv cfg s) :
    ∀ x ∈ s.admitLog ++ [s.now], x ≤ s.now := by
  intro x hx
  rcases List.mem_append.mp hx with h1 | h1
  · exact h.log_le_now x h1
  · simp only [List.mem_singleton] at h1
    omega

/-- The heart of the sliding-window invariant: if the pruned log is
below the ceiling, appending the current admission keeps every trailing
window at or below the ceiling. -/
theorem admit_window {cfg : Cfg} {s : TS} (h : Inv cfg s)
    (hok : rateLenOK (pruneLog s.rateMessages s.now).length cfg.sendingRate = true) :
    ∀ r : Nat, cfg.sendingRate = some r →
      ∀ t : Int, windowCount (s.admitLog ++ [s.now]) t ≤ r := by
  intro r hr t
  rw [windowCount_append]
  split
  case isTrue hin =>
    obtain ⟨dropped, hsp, hdr⟩ := h.log_split
    have h1 : windowCount s.admitLog t
        ≤ (s.admitLog.filter (fun x => decide (s.now - rateInterval < x))).length :=
      windowCount_le_unexpired h.log_le_now hin.2
    have h2 : s.admitLog.filter (fun x => decide (s.now - rateInterval < x))
        = pruneLog s.rateMessages s.now := by
      rw [hsp, List.filter_append]
      have hd : dropped.filter (fun x => decide (s.now - rateInterval < x)) = [] :=
        List.filter_eq_nil_iff.mpr fun x hx => by simpa using not_lt.mpr (hdr x hx)
      rw [hd, List.nil_append, ← pruneLog_eq_filter s.now h.rate_sorted]
    have h3 : (pruneLog s.rateMessages s.now).length < r := by
      rw [hr] at hok
      exact rateLenOK_true hok
    rw [h2] at h1
    omega
  case isFalse hout =>
    have := h.window r hr t
    omega

theorem inv_enqueue (cfg : Cfg) (s : TS) (h : Inv cfg s) : Inv cfg (enqueue s) := by
  obtain ⟨qadm, hq1, hq2⟩ := h.queue_split
  refine ⟨h.conn_eq, h.conn_le, h.rate_sorted, h.rate_le_now, h.rate_len, h.log_split,
    h.log_sorted, h.log_le_now, h.window, ?_, ?_, ?_, ?_, ?_, ?_, h.calls_count,
    ?_, ?_, h.adm_nodup, ?_, ?_⟩
  · show ∀ j ∈ s.pending ++ [s.nextId], j < s.nextId + 1
    intro j hj
    rcases List.mem_append.mp hj with h1 | h1
    · exact lt_trans (h.pend_lt j h1) (Nat.lt_succ_self _)
    · simp only [List.mem_singleton] at h1
      omega
  · intro j hj
    exact lt_trans (h.infl_lt j hj) (Nat.lt_succ_self _)
  · intro p hp
    exact lt_trans (h.sched_lt p hp) (Nat.lt_succ_self _)
  · intro j hj
    exact lt_trans (h.done_lt j hj) (Nat.lt_succ_self _)
  · intro j hj
    exact lt_trans (h.adm_lt j hj) (Nat.lt_succ_self _)
  · show ∀ j ∈ s.everQueued ++ [s.nextId], j < s.nextId + 1
    intro j hj
    rcases List.mem_append.mp hj with h1 | h1
    · exact lt_trans (h.evq_lt j h1) (Nat.lt_succ_self _)
    · simp only [List.mem_singleton] at h1
      omega
  · exact pairwise_concat h.pend_sorted h.pend_lt
  · intro j hj
    rcases List.mem_append.mp hj with h1 | h1
    · exact h.pend_not_adm j h1
    · simp only [List.mem_singleton] at h1
      subst h1
      exact fun hmem => absurd (h.adm_lt _ hmem) (lt_irrefl _)
  · refine ⟨qadm, ?_, ?_⟩
    · show s.everQueued ++ [s.nextId] = qadm ++ (s.pending ++ [s.nextId])
      rw [hq1, List.append_assoc]
    · show s.admitted.filter (fun j => decide (j ∈ s.everQueued ++ [s.nextId])) = qadm
      rw [← hq2]
      refine List.filter_congr fun j hj => ?_
      have hlt := h.adm_lt j hj
      refine decide_eq_decide.mpr ⟨fun hm => ?_, fun hm => List.mem_append.mpr (Or.inl hm)⟩
      rcases List.mem_append.mp hm with h1 | h1
      · exact h1
      · simp only [List.mem_singleton] at h1
        omega
  · exact (perm_insert_first s.pending s.inflight (s.scheduled.map Prod.fst) s.done
      s.nextId).symm.nodup (List.nodup_cons.mpr ⟨fresh_not_mem_part h, h.part_nodup⟩)

theorem inv_sendStep (cfg : Cfg) (s : TS) (h : Inv cfg s) : Inv cfg (sendStep cfg s) := by
  unfold sendStep
  split
  · exact inv_enqueue cfg s h
  case isFalse hconn =>
    split
    case isTrue hok =>
      rw [checkSendingRate_log, checkSendingRate_timer_of_ok _ _ _ hok]
      rw [checkSendingRate_ok] at hok
      obtain ⟨qadm, hq1, hq2⟩ := h.queue_split
      refine ⟨?_, ?_, admit_rate_sorted h, admit_rate_le_now h, admit_rate_len h hok,
        admit_log_split h, admit_log_sorted h, admit_log_le_now h, admit_window h hok,
        ?_, ?_, ?_, ?_, ?_, ?_, h.calls_count, h.pend_sorted, ?_, ?_, ?_, ?_⟩
      · show s.connections + 1 = ((s.inflight ++ [s.nextId]).length : Int)
        have hc := h.conn_eq
        rw [List.length_append, List.length_singleton]
        omega
      · intro m hm
        rw [hm] at hconn
        simp only [connAtMax, decide_eq_true_eq] at hconn
        show s.connections + 1 ≤ (m : Int)
        omega
      · intro j hj
        exact lt_trans (h.pend_lt j hj) (Nat.lt_succ_self _)
      · show ∀ j ∈ s.inflight ++ [s.nextId], j < s.nextId + 1
        intro j hj
        rcases List.mem_append.mp hj with h1 | h1
        · exact lt_trans (h.infl_lt j h1) (Nat.lt_succ_self _)
        · simp only [List.mem_singleton] at h1
          omega
      · intro p hp
        exact lt_trans (h.sched_lt p hp) (Nat.lt_succ_self _)
      · intro j hj
        exact lt_trans (h.done_lt j hj) (Nat.lt_succ_self _)
      · show ∀ j ∈ s.admitted ++ [s.nextId], j < s.nextId + 1
        intro j hj
        rcases List.mem_append.mp hj with h1 | h1
        · exact lt_trans (h.adm_lt j h1) (Nat.lt_succ_self _)
        · simp only [List.mem_singleton] at h1
          omega
      · intro j hj
        exact lt_trans (h.evq_lt j hj) (Nat.lt_succ_self _)
      · intro j hj
        show j ∉ s.admitted ++ [s.nextId]
        intro hmem
        rcases List.mem_append.mp hmem with h1 | h1
        · exact h.pend_not_adm j hj h1
        · simp only [List.mem_singleton] at h1
          subst h1
          exact absurd (h.pend_lt _ hj) (lt_irrefl _)
      · exact nodup_concat h.adm_nodup fun hmem => absurd (h.adm_lt _ hmem) (lt_irrefl _)
      · refine ⟨qadm, hq1, ?_⟩
        show (s.admitted ++ [s.nextId]).filter (fun j => decide (j ∈ s.everQueued)) = qadm
        have hn : s.nextId ∉ s.everQueued := fun hm => absurd (h.evq_lt _ hm) (lt_irrefl _)
        rw [List.filter_append, hq2]
        simp [hn]
      · show ((s.pending ++ (s.inflight ++ [s.nextId])) ++ s.scheduled.map Prod.fst
            ++ s.done).Nodup
        exact (perm_insert_second s.pending s.inflight (s.scheduled.map Prod.fst) s.done
          s.nextId).symm.nodup
          (List.nodup_cons.mpr ⟨fresh_not_mem_part h, h.part_nodup⟩)
    case isFalse hok =>
      rw [checkSendingRate_log]
      exact inv_enqueue cfg _ (inv_prune cfg s _ h)

theorem inv_checkRatedQueue (cfg : Cfg) (s : TS) (h : Inv cfg s) :
    Inv cfg (checkRatedQueue cfg s) := by
  unfold checkRatedQueue
  split
  · exact h
  case isFalse hconn =>
    split
    case isTrue hok =>
      split
      case h_1 heq =>
        rw [checkSendingRate_log]
        exact inv_prune cfg s _ h
      case h_2 hd tl heq =>
        rw [checkSendingRate_log, checkSendingRate_timer_of_ok _ _ _ hok]
        rw [checkSendingRate_ok] at hok
        obtain ⟨qadm, hq1, hq2⟩ := h.queue_split
        have hhd : hd ∈ s.pending := by
          rw [heq]
          exact List.mem_cons_self hd tl
        have hsort := h.pend_sorted
        rw [heq, List.sorted_cons] at hsort
        refine ⟨?_, ?_, admit_rate_sorted h, admit_rate_le_now h, admit_rate_len h hok,
          admit_log_split h, admit_log_sorted h, admit_log_le_now h, admit_window h hok,
          ?_, ?_, h.sched_lt, h.done_lt, ?_, h.evq_lt, h.calls_count, hsort.2, ?_, ?_,
          ?_, ?_⟩
        · show s.connections + 1 = ((s.inflight ++ [hd]).length : Int)
          have hc := h.conn_eq
          rw [List.length_append, List.length_singleton]
          omega
        · intro m hm
          rw [hm] at hconn
          simp only [connAtMax, decide_eq_true_eq] at hconn
          show s.connections + 1 ≤ (m : Int)
          omega
        · intro j hj
          refine h.pend_lt j ?_
          rw [heq]
          exact List.mem_cons_of_mem hd hj
        · show ∀ j ∈ s.inflight ++ [hd], j < s.nextId
          intro j hj
          rcases List.mem_append.mp hj with h1 | h1
          · exact h.infl_lt j h1
          · simp only [List.mem_singleton] at h1
            subst h1
            exact h.pend_lt j hhd
        · show ∀ j ∈ s.admitted ++ [hd], j < s.nextId
          intro j hj
          rcases List.mem_append.mp hj with h1 | h1
          · exact h.adm_lt j h1
          · simp only [List.mem_singleton] at h1
            subst h1
            exact h.pend_lt j hhd
        · intro j hj
          show j ∉ s.admitted ++ [hd]
          intro hmem
          have hjp : j ∈ s.pending := by
            rw [heq]
            exact List.mem_cons_of_mem hd hj
          rcases List.mem_append.mp hmem with h1 | h1
          · exact h.pend_not_adm j hjp h1
          · simp only [List.mem_singleton] at h1
            subst h1
            exact absurd (hsort.1 j hj) (lt_irrefl _)
        · exact nodup_concat h.adm_nodup (h.pend_not_adm hd hhd)
        · refine ⟨qadm ++ [hd], ?_, ?_⟩
          · show s.everQueued = (qadm ++ [hd]) ++ tl
            rw [hq1, heq, List.append_assoc, List.singleton_append]
          · show (s.admitted ++ [hd]).filter (fun j => decide (j ∈ s.everQueued))
                = qadm ++ [hd]
            have hmem : hd ∈ s.everQueued := by
              rw [hq1]
              exact List.mem_append.mpr (Or.inr hhd)
            rw [List.filter_append, hq2]
            simp [hmem]
        · show ((tl ++ (s.inflight ++ [hd])) ++ s.scheduled.map Prod.fst ++ s.done).Nodup
          have hp := h.part_nodup
          rw [heq] at hp
          exact (perm_insert_second tl s.inflight (s.scheduled.map Prod.fst) s.done
            hd).symm.nodup hp
    case isFalse hok =>
      rw [checkSendingRate_log]
      exact inv_prune cfg s _ h

theorem inv_completeStep (cfg : Cfg) (s : TS) (j : Nat) (o : Outcome)
    (hj : j ∈ s.inflight) (h : Inv cfg s) : Inv cfg (completeStep cfg j o s) := by
  have hmid : Inv cfg
      { s with inflight := s.inflight.erase j,
               scheduled := s.scheduled ++ [(j, o)],
               connections := s.connections - 1 } := by
    refine ⟨?_, ?_, h.rate_sorted, h.rate_le_now, h.rate_len, h.log_split, h.log_sorted,
      h.log_le_now, h.window, h.pend_lt, ?_, ?_, h.done_lt, h.adm_lt, h.evq_lt,
      h.calls_count, h.pend_sorted, h.pend_not_adm, h.adm_nodup, h.queue_split, ?_⟩
    · show s.connections - 1 = ((s.inflight.erase j).length : Int)
      have hlen := List.length_erase_of_mem hj
      have hpos := List.length_pos_of_mem hj
      have hc := h.conn_eq
      rw [hlen]
      omega
    · intro m hm
      have := h.conn_le m hm
      show s.connections - 1 ≤ (m : Int)
      omega
    · intro j' hj'
      exact h.infl_lt j' ((s.inflight.erase_sublist j).subset hj')
    · show ∀ p ∈ s.scheduled ++ [(j, o)], p.1 < s.nextId
      intro p hp
      rcases List.mem_append.mp hp with h1 | h1
      · exact h.sched_lt p h1
      · simp only [List.mem_singleton] at h1
        subst h1
        exact h.infl_lt j hj
    · show ((s.pending ++ s.inflight.erase j)
          ++ (s.scheduled ++ [(j, o)]).map Prod.fst ++ s.done).Nodup
      have hp := h.part_nodup
      have hold : List.Perm (((s.pending ++ s.inflight) ++ s.scheduled.map Prod.fst) ++ s.done)
          (j :: (((s.pending ++ s.inflight.erase j) ++ s.scheduled.map Prod.fst) ++ s.done)) := by
        have h1 : List.Perm (s.pending ++ s.inflight)
            (j :: (s.pending ++ s.inflight.erase j)) :=
          ((List.perm_cons_erase hj).append_left s.pending).trans List.perm_middle
        exact (h1.append_right _).append_right _
      have hnew : List.Perm
          (((s.pending ++ s.inflight.erase j) ++ (s.scheduled.map Prod.fst ++ [j])) ++ s.done)
          (j :: (((s.pending ++ s.inflight.erase j) ++ s.scheduled.map Prod.fst) ++ s.done)) :=
        perm_insert_third _ _ _ _ j
      rw [List.map_append]
      simp only [List.map_cons, List.map_nil]
      exact (hold.trans hnew.symm).nodup hp
  exact inv_checkRatedQueue cfg _ hmid

theorem inv_deliverStep (cfg : Cfg) (s : TS) (h : Inv cfg s) : Inv cfg (deliverStep s) := by
  unfold deliverStep
  split
  · exact h
  case h_2 j o rest heq =>
    have hp := h.part_nodup
    rw [heq] at hp
    have hperm : List.Perm
        (((s.pending ++ s.inflight) ++ (j :: rest.map Prod.fst)) ++ s.done)
        (j :: (((s.pending ++ s.inflight) ++ rest.map Prod.fst) ++ s.done)) :=
      perm_cons_third _ _ _ _ _
    have hjX : (j :: (((s.pending ++ s.inflight) ++ rest.map Prod.fst) ++ s.done)).Nodup :=
      hperm.nodup hp
    have hjD : j ∉ s.done := fun hd =>
      (List.nodup_cons.mp hjX).1 (List.mem_append.mpr (Or.inr hd))
    refine ⟨h.conn_eq, h.conn_le, h.rate_sorted, h.rate_le_now, h.rate_len, h.log_split,
      h.log_sorted, h.log_le_now, h.window, h.pend_lt, h.infl_lt, ?_, ?_, h.adm_lt,
      h.evq_lt, ?_, h.pend_sorted, h.pend_not_adm, h.adm_nodup, h.queue_split, ?_⟩
    · intro p hp'
      refine h.sched_lt p ?_
      rw [heq]
      exact List.mem_cons_of_mem _ hp'
    · show ∀ j' ∈ s.done ++ [j], j' < s.nextId
      intro j' hj'
      rcases List.mem_append.mp hj' with h1 | h1
      · exact h.done_lt j' h1
      · simp only [List.mem_singleton] at h1
        subst h1
        refine h.sched_lt (j', o) ?_
        rw [heq]
        exact List.mem_cons_self _ _
    · intro j'
      show ((s.calls ++ [(j, o)]).filter (fun p => decide (p.1 = j'))).length
          = if j' ∈ s.done ++ [j] then 1 else 0
      by_cases hjj : j = j'
      · subst hjj
        have h0 := h.calls_count j
        rw [if_neg hjD] at h0
        have hfilt : List.filter (fun p => decide (p.1 = j)) [(j, o)] = [(j, o)] := by
          simp
        rw [List.filter_append, List.length_append, hfilt, h0]
        have hmem : j ∈ s.done ++ [j] :=
          List.mem_append.mpr (Or.inr (List.mem_singleton.mpr rfl))
        rw [if_pos hmem]
        rfl
      · have h0 := h.calls_count j'
        have hfilt : List.filter (fun p => decide (p.1 = j')) [(j, o)] = [] := by
          simp [hjj]
        have hmem : (j' ∈ s.done ++ [j]) ↔ j' ∈ s.done := by
          simp only [List.mem_append, List.mem_singleton]
          constructor
          · rintro (h1 | h1)
            · exact h1
            · exact absurd h1.symm hjj
          · exact Or.inl
        rw [List.filter_append, List.length_append, hfilt, List.length_nil,
          Nat.add_zero, h0]
        simp only [hmem]
    · show (((s.pending ++ s.inflight) ++ rest.map Prod.fst) ++ (s.done ++ [j])).Nodup
      exact (perm_insert_fourth s.pending s.inflight (rest.map Prod.fst) s.done
        j).symm.nodup hjX

/-- Every reachable state of the transport satisfies the full invariant. -/
theorem reachable_inv {cfg : Cfg} {s : TS} (h : Reachable cfg s) : Inv cfg s := by
  induction h with
  | init => exact inv_initTS cfg
  | step hr hst ih =>
      cases hst with
      | send => exact inv_sendStep cfg _ ih
      | complete j o hj => exact inv_completeStep cfg _ j o hj ih
      | deliver => exact inv_deliverStep cfg _ ih
      | fire hsome => exact inv_checkRatedQueue cfg _ (inv_timer cfg _ none ih)
      | tick d hd => exact inv_tick cfg _ d hd ih

/-! ### Further helper lemmas for the claims -/

/-- `_checkRatedQueue` never touches the callback machinery, the id
counter, the queue-entry history or the clock. -/
theorem checkRatedQueue_frozen (cfg : Cfg) (s : TS) :
    (checkRatedQueue cfg s).scheduled = s.scheduled ∧
    (checkRatedQueue cfg s).done = s.done ∧
    (checkRatedQueue cfg s).calls = s.calls ∧
    (checkRatedQueue cfg s).everQueued = s.everQueued ∧
    (checkRatedQueue cfg s).nextId = s.nextId ∧
    (checkRatedQueue cfg s).now = s.now := by
  unfold checkRatedQueue
  split
  · exact ⟨rfl, rfl, rfl, rfl, rfl, rfl⟩
  · split
    · split <;> exact ⟨rfl, rfl, rfl, rfl, rfl, rfl⟩
    · exact ⟨rfl, rfl, rfl, rfl, rfl, rfl⟩

theorem mem_pruneLog_of_mem {l : List Int} {now x : Int}
    (hx : x ∈ l) (hw : now - rateInterval < x) : x ∈ pruneLog l now := by
  have hx' : x ∈ l.takeWhile (fun t => decide (t ≤ now - rateInterval)) ++ pruneLog l now := by
    rw [takeWhile_append_pruneLog]
    exact hx
  rcases List.mem_append.mp hx' with h1 | h1
  · exact absurd (mem_pruneDropped_le h1) (by omega)
  · exact h1

/-- A redrive never removes an unexpired entry from the rate log. -/
theorem checkRatedQueue_keeps_window (cfg : Cfg) (s : TS) :
    ∀ x ∈ s.rateMessages, s.now - rateInterval < x →
      x ∈ (checkRatedQueue cfg s).rateMessages := by
  intro x hx hw
  unfold checkRatedQueue
  split
  · exact hx
  · split
    · split
      · show x ∈ (checkSendingRate cfg.sendingRate s.rateMessages s.now).log
        rw [checkSendingRate_log]
        exact mem_pruneLog_of_mem hx hw
      · show x ∈ (checkSendingRate cfg.sendingRate s.rateMessages s.now).log ++ [s.now]
        rw [checkSendingRate_log]
        exact List.mem_append.mpr (Or.inl (mem_pruneLog_of_mem hx hw))
    · show x ∈ (checkSendingRate cfg.sendingRate s.rateMessages s.now).log
      rw [checkSendingRate_log]
      exact mem_pruneLog_of_mem hx hw

/-! ### Reachability of the concrete traces -/

theorem fifoTrace_reachable : Reachable fifoCfg fifoTrace :=
  Reachable.step
    (Reachable.step
      (Reachable.step
        (Reachable.step
          (Reachable.step (Reachable.step Reachable.init (Step.send _)) (Step.send _))
          (Step.tick _ 1100 (by decide)))
        (Step.send _))
      (Step.tick _ 1100 (by decide)))
    (Step.complete _ 0 (Outcome.success 0) (by decide))

theorem c2State_reachable : Reachable c2Cfg c2State :=
  Reachable.step Reachable.init (Step.send _)

theorem c3State_reachable : Reachable c3Cfg c3State :=
  Reachable.step Reachable.init (Step.send _)

theorem c5State_reachable : Reachable c5Cfg c5State :=
  Reachable.step
    (Reachable.step
      (Reachable.step
        (Reachable.step (Reachable.step Reachable.init (Step.send _)) (Step.send _))
        (Step.send _))
      (Step.send _))
    (Step.tick _ 2000 (by decide))

theorem c6State_reachable : Reachable c6Cfg c6State :=
  Reachable.step
    (Reachable.step (Reachable.step Reachable.init (Step.send _))
      (Step.complete _ 0 (Outcome.failure 7) (by decide)))
    (Step.deliver _)

theorem c7State_reachable : Reachable c7Cfg c7State :=
  Reachable.step Reachable.init (Step.send _)

theorem c8State_reachable : Reachable c8Cfg c8State :=
  Reachable.step Reachable.init (Step.send _)

/-! ### The claims -/

/-- C1, as stated, is false: `send` admits a fresh submission without
consulting the pending queue, so with `sendingRate = 1` a job submitted
after the window has rolled (job 2) is admitted immediately while the
earlier job 1 is still queued; job 1 is only admitted later, giving
admission order `[0, 2, 1]`. -/
theorem C1_fifo_counterexample :
    Reachable fifoCfg fifoTrace ∧ ¬ FIFOAdmitted fifoTrace := by
  refine ⟨fifoTrace_reachable, fun hfifo => ?_⟩
  have h12 := hfifo 1 2 (by decide) (by decide) (by decide)
  revert h12
  decide

/-- C1 (amended): FIFO fairness holds among the jobs that pass through
the pending queue: in every reachable state the ever-queued jobs split as
`qadm ++ pending`, where `qadm` — the queued jobs already admitted — is
exactly the admission sequence restricted to ever-queued jobs, in queue
(= submission) order.  Jobs admitted directly at submission are not
ordered relative to queued jobs. -/
theorem C1_queue_fifo (cfg : Cfg) (s : TS) (h : Reachable cfg s) :
    ∃ qadm : List Nat, s.everQueued = qadm ++ s.pending ∧
      s.admitted.filter (fun j => decide (j ∈ s.everQueued)) = qadm :=
  (reachable_inv h).queue_split

/-- Witness for C1 (amended) at the concrete counterexample trace. -/
theorem C1_queue_fifo_witness :
    ∃ qadm : List Nat, fifoTrace.everQueued = qadm ++ fifoTrace.pending ∧
      fifoTrace.admitted.filter (fun j => decide (j ∈ fifoTrace.everQueued)) = qadm :=
  C1_queue_fifo fifoCfg fifoTrace fifoTrace_reachable

/-- C2: in every reachable state, `0 ≤ connections`, and
`connections ≤ maxConnections` whenever the ceiling is finite (with an
`Infinity` ceiling the upper bound is vacuous). -/
theorem C2_connections_bounded (cfg : Cfg) (s : TS) (h : Reachable cfg s) :
    0 ≤ s.connections ∧
    ∀ m : Nat, cfg.maxConnections = some m → s.connections ≤ (m : Int) := by
  have hi := reachable_inv h
  refine ⟨?_, hi.conn_le⟩
  rw [hi.conn_eq]
  exact Int.natCast_nonneg _

/-- Witness for C2 after one admission against `maxConnections = 2`. -/
theorem C2_connections_bounded_witness :
    (0 : Int) ≤ c2State.connections ∧ c2State.connections ≤ (2 : Int) :=
  ⟨(C2_connections_bounded c2Cfg c2State c2State_reachable).1,
   (C2_connections_bounded c2Cfg c2State c2State_reachable).2 2 rfl⟩

/-- C3: in every reachable state the rate log is in non-decreasing order,
and with a finite `sendingRate` every trailing window of length
`rateInterval` contains at most `sendingRate` admissions; moreover the
log length itself never exceeds `sendingRate`. -/
theorem C3_rate_window (cfg : Cfg) (s : TS) (h : Reachable cfg s) :
    s.rateMessages.Sorted (· ≤ ·) ∧
    ∀ r : Nat, cfg.sendingRate = some r →
      (∀ t : Int, windowCount s.admitLog t ≤ r) ∧ s.rateMessages.length ≤ r := by
  have hi := reachable_inv h
  exact ⟨hi.rate_sorted, fun r hr => ⟨hi.window r hr, hi.rate_len r hr⟩⟩

/-- Witness for C3 after one admission against `sendingRate = 1`. -/
theorem C3_rate_window_witness :
    c3State.rateMessages.Sorted (· ≤ ·) ∧
    windowCount c3State.admitLog 0 ≤ 1 ∧ c3State.rateMessages.length ≤ 1 :=
  ⟨(C3_rate_window c3Cfg c3State c3State_reachable).1,
   ((C3_rate_window c3Cfg c3State c3State_reachable).2 1 rfl).1 0,
   ((C3_rate_window c3Cfg c3State c3State_reachable).2 1 rfl).2⟩

/-- C4 evaluated at a failing input: with `sendingRate = 1`, rate log
`[0]` and `now = 500`, the check refuses and passes `now - delay =
500 - max (0 + 1001) (500 + 20) = -501` to `setTimeout` — a negative
duration, so the timer fires immediately, 500 ms before the oldest
window entry expires at t = 1000.  The intended value
`delay - now = 501` (positive, ≥ 20, and past the entry's expiry) is
what the claim describes. -/
theorem C4_timer_negative_eval :
    (checkSendingRate (some 1) [0] 500).ok = false ∧
    (checkSendingRate (some 1) [0] 500).timer = some (-501) ∧
    pruneLog [0] 500 = [0] := by
  refine ⟨?_, ?_, ?_⟩ <;> decide

/-- C5, as stated, is false: a redrive invocation is not a loop.  At
`c5State` (two queued jobs, the whole rate window expired, no concurrency
ceiling) one `_checkRatedQueue` call admits only the head job and
returns with job 3 still queued even though another admission check
would succeed. -/
theorem C5_redrive_counterexample :
    Reachable c5Cfg c5State ∧ ¬ DrainsToExhaustion c5Cfg c5State := by
  refine ⟨c5State_reachable, ?_⟩
  unfold DrainsToExhaustion
  decide

/-- C5 (amended): one `_checkRatedQueue` invocation admits at most one
job.  Either the guard fails (connections at the ceiling, rate check
refused, or empty queue) and the queue, in-flight set and admission
order are untouched, or the guard passes and exactly the head job is
popped and handed to the executor. -/
theorem C5_redrive_one_step (cfg : Cfg) (s : TS) :
    ((connAtMax s.connections cfg.maxConnections = true ∨
      (checkSendingRate cfg.sendingRate s.rateMessages s.now).ok = false ∨
      s.pending = []) ∧
     (checkRatedQueue cfg s).pending = s.pending ∧
     (checkRatedQueue cfg s).inflight = s.inflight ∧
     (checkRatedQueue cfg s).admitted = s.admitted) ∨
    (∃ hd tl, s.pending = hd :: tl ∧
     connAtMax s.connections cfg.maxConnections = false ∧
     (checkSendingRate cfg.sendingRate s.rateMessages s.now).ok = true ∧
     (checkRatedQueue cfg s).pending = tl ∧
     (checkRatedQueue cfg s).inflight = s.inflight ++ [hd] ∧
     (checkRatedQueue cfg s).admitted = s.admitted ++ [hd]) := by
  unfold checkRatedQueue
  split
  case isTrue hconn => exact Or.inl ⟨Or.inl hconn, rfl, rfl, rfl⟩
  case isFalse hconn =>
    split
    case isTrue hok =>
      split
      case h_1 heq => exact Or.inl ⟨Or.inr (Or.inr heq), rfl, rfl, rfl⟩
      case h_2 hd tl heq =>
        exact Or.inr ⟨hd, tl, heq, by simpa using hconn, hok, rfl, rfl, rfl⟩
    case isFalse hok =>
      exact Or.inl ⟨Or.inr (Or.inl (by simpa using hok)), rfl, rfl, rfl⟩

/-- C6: in every reachable state each job's completion callback has run
exactly once if the job is done and zero times otherwise (so never more
than once), and a `send` invocation never runs any completion callback —
callbacks fire only on their own later `setImmediate` turn. -/
theorem C6_callback_once (cfg : Cfg) (s : TS) (h : Reachable cfg s) :
    (∀ j : Nat, (s.calls.filter (fun p => decide (p.1 = j))).length
        = if j ∈ s.done then 1 else 0) ∧
    (sendStep cfg s).calls = s.calls := by
  refine ⟨(reachable_inv h).calls_count, ?_⟩
  unfold sendStep
  split
  · rfl
  · split <;> rfl

/-- Witness for C6: after job 0's failure outcome is delivered its
callback has run exactly once, and a further `send` runs no callback. -/
theorem C6_callback_once_witness :
    (c6State.calls.filter (fun p => decide (p.1 = 0))).length = 1 ∧
    (sendStep c6Cfg c6State).calls = c6State.calls := by
  refine ⟨?_, (C6_callback_once c6Cfg c6State c6State_reachable).2⟩
  have h := (C6_callback_once c6Cfg c6State c6State_reachable).1 0
  rw [h]
  decide

/-- C7: `_sent` (release), invoked for an in-flight job of a reachable
state, decrements `connections` by exactly one, which never takes it
below zero, and then triggers `_checkRatedQueue` on the decremented
state. -/
theorem C7_release (cfg : Cfg) (s : TS) (j : Nat) (o : Outcome)
    (h : Reachable cfg s) (hj : j ∈ s.inflight) :
    0 ≤ s.connections - 1 ∧
    completeStep cfg j o s
      = sentStep cfg { s with inflight := s.inflight.erase j,
                              scheduled := s.scheduled ++ [(j, o)] } ∧
    sentStep cfg { s with inflight := s.inflight.erase j,
                          scheduled := s.scheduled ++ [(j, o)] }
      = checkRatedQueue cfg { s with inflight := s.inflight.erase j,
                                     scheduled := s.scheduled ++ [(j, o)],
                                     connections := s.connections - 1 } := by
  have hi := reachable_inv h
  refine ⟨?_, rfl, rfl⟩
  have hc := hi.conn_eq
  have hpos := List.length_pos_of_mem hj
  omega

/-- Witness for C7 on the one-in-flight state `c7State`. -/
theorem C7_release_witness :
    0 ≤ c7State.connections - 1 ∧
    completeStep c7Cfg 0 (Outcome.success 3) c7State
      = sentStep c7Cfg { c7State with inflight := c7State.inflight.erase 0,
                                      scheduled := c7State.scheduled ++ [(0, Outcome.success 3)] } ∧
    sentStep c7Cfg { c7State with inflight := c7State.inflight.erase 0,
                                  scheduled := c7State.scheduled ++ [(0, Outcome.success 3)] }
      = checkRatedQueue c7Cfg { c7State with inflight := c7State.inflight.erase 0,
                                             scheduled := c7State.scheduled ++ [(0, Outcome.success 3)],
                                             connections := c7State.connections - 1 } :=
  C7_release c7Cfg c7State 0 (Outcome.success 3) c7State_reachable (by decide)

/-- C8: when an in-flight job fails, the error value is scheduled for
the job's completion callback unchanged, `_sent` still runs (the slot is
freed and the queue redriven on the decremented state), and no unexpired
rate-log entry — in particular the one pushed at this job's admission —
is removed by the failure handling. -/
theorem C8_failure_path (cfg : Cfg) (s : TS) (j : Nat) (e : Int)
    (h : Reachable cfg s) (hj : j ∈ s.inflight) :
    (j, Outcome.failure e) ∈ (completeStep cfg j (Outcome.failure e) s).scheduled ∧
    completeStep cfg j (Outcome.failure e) s
      = checkRatedQueue cfg { s with inflight := s.inflight.erase j,
                                     scheduled := s.scheduled ++ [(j, Outcome.failure e)],
                                     connections := s.connections - 1 } ∧
    ∀ x ∈ s.rateMessages, s.now - rateInterval < x →
      x ∈ (completeStep cfg j (Outcome.failure e) s).rateMessages := by
  refine ⟨?_, rfl, ?_⟩
  · have hfr := (checkRatedQueue_frozen cfg
      { s with inflight := s.inflight.erase j,
               scheduled := s.scheduled ++ [(j, Outcome.failure e)],
               connections := s.connections - 1 }).1
    show (j, Outcome.failure e) ∈ (checkRatedQueue cfg _).scheduled
    rw [hfr]
    exact List.mem_append.mpr (Or.inr (List.mem_singleton.mpr rfl))
  · intro x hx hw
    exact checkRatedQueue_keeps_window cfg
      { s with inflight := s.inflight.erase j,
               scheduled := s.scheduled ++ [(j, Outcome.failure e)],
               connections := s.connections - 1 } x hx hw

/-- Witness for C8 on the one-in-flight state `c8State`: the failure
outcome is scheduled and the admission timestamp `0` survives. -/
theorem C8_failure_path_witness :
    (0, Outcome.failure 9) ∈ (completeStep c8Cfg 0 (Outcome.failure 9) c8State).scheduled ∧
    (0 : Int) ∈ (completeStep c8Cfg 0 (Outcome.failure 9) c8State).rateMessages :=
  ⟨(C8_failure_path c8Cfg c8State 0 9 c8State_reachable (by decide)).1,
   (C8_failure_path c8Cfg c8State 0 9 c8State_reachable (by decide)).2.2 0
     (by decide) (by decide)⟩

/-- C9: on a sorted rate log, `_checkSendingRate` prunes exactly the
timestamps `t ≤ now - rateInterval`: the returned log is the pruned one,
the removed part is an oldest-first prefix all of whose entries are
expired, and every strictly newer entry is kept in place. -/
theorem C9_prune_exact (rate : Option Nat) (l : List Int) (now : Int)
    (hs : l.Sorted (· ≤ ·)) :
    (checkSendingRate rate l now).log = pruneLog l now ∧
    (∃ removed, l = removed ++ pruneLog l now ∧
        ∀ x ∈ removed, x ≤ now - rateInterval) ∧
    pruneLog l now = l.filter (fun t => decide (now - rateInterval < t)) :=
  ⟨checkSendingRate_log rate l now,
    ⟨l.takeWhile (fun t => decide (t ≤ now - rateInterval)),
      (takeWhile_append_pruneLog l now).symm, fun x hx => mem_pruneDropped_le hx⟩,
    pruneLog_eq_filter now hs⟩

/-- Witness for C9 on the sorted log `[-2000, 10, 50]` at `now = 500`
(cutoff `-500`: exactly `-2000` is removed). -/
theorem C9_prune_exact_witness :
    (checkSendingRate (some 3) [-2000, 10, 50] 500).log = pruneLog [-2000, 10, 50] 500 ∧
    (∃ removed, [-2000, 10, 50] = removed ++ pruneLog [-2000, 10, 50] 500 ∧
        ∀ x ∈ removed, x ≤ 500 - rateInterval) ∧
    pruneLog [-2000, 10, 50] 500
      = [-2000, 10, 50].filter (fun t => decide (500 - rateInterval < t)) :=
  C9_prune_exact (some 3) [-2000, 10, 50] 500 (by decide)

/-- C10: the constructor's `Number(...) || Infinity` coercion maps an
omitted or non-coercible option (both yield `NaN`) and an explicit `0` to
an `Infinity` ceiling; against an `Infinity` ceiling the concurrency
check never refuses and the rate-length check always passes; and a
finite ceiling can only come from a nonzero finite numeric option. -/
theorem C10_ctor_ceilings :
    ceilingOf JSNum.nan = JSNum.inf ∧
    ceilingOf (JSNum.fin 0) = JSNum.inf ∧
    (∀ c : Int, jsConnAtMax c (ceilingOf JSNum.nan) = false) ∧
    (∀ len : Nat, jsRateLenOK len (ceilingOf JSNum.nan) = true) ∧
    (∀ n : JSNum, ∀ v : Int, ceilingOf n = JSNum.fin v → n = JSNum.fin v ∧ v ≠ 0) := by
  refine ⟨rfl, rfl, fun c => rfl, fun len => rfl, ?_⟩
  intro n v h
  unfold ceilingOf at h
  split at h
  case isTrue hcond => exact absurd h (by simp)
  case isFalse hcond =>
    refine ⟨h, fun hv => ?_⟩
    subst hv
    exact hcond (Or.inr h)

/-- Witness for C10: the `NaN` ceiling never refuses, and `7` survives
the coercion as a finite nonzero ceiling. -/
theorem C10_ctor_ceilings_witness :
    jsConnAtMax 5 (ceilingOf JSNum.nan) = false ∧
    jsRateLenOK 5 (ceilingOf JSNum.nan) = true ∧
    (JSNum.fin 7 = JSNum.fin 7 ∧ (7 : Int) ≠ 0) :=
  ⟨C10_ctor_ceilings.2.2.1 5, C10_ctor_ceilings.2.2.2.1 5,
   C10_ctor_ceilings.2.2.2.2 (JSNum.fin 7) 7 rfl⟩

end SESVerify
